import Mathlib

/-!
Shallow embedding of `src/wings/merge.py`, a single-header amalgamation
tool.  Python strings are modelled by Lean `String` (lists of unicode
characters), `pathlib.Path` values by their component lists, and the
filesystem by an association list from normalized absolute paths to file
contents.  Recursion depth (Python's call stack) is modelled by explicit
fuel; running out of fuel is distinguished from a read error.
-/

namespace Wings

/-- The line-break characters recognized by Python's `str.splitlines`
(LF, CR, VT, FF, FS, GS, RS, NEL, LINE SEPARATOR, PARAGRAPH SEPARATOR;
CRLF is handled as a single break by the splitter itself). -/
def isLB (c : Char) : Bool :=
  c.toNat = 10 || c.toNat = 13 || c.toNat = 11 || c.toNat = 12 ||
  c.toNat = 28 || c.toNat = 29 || c.toNat = 30 || c.toNat = 133 ||
  c.toNat = 0x2028 || c.toNat = 0x2029

/-- The whitespace characters recognized by Python's no-argument
`str.split` (ASCII whitespace, the C1/Unicode space characters). -/
def isPyWs (c : Char) : Bool :=
  c.toNat = 32 || c.toNat = 9 || c.toNat = 10 || c.toNat = 13 ||
  c.toNat = 11 || c.toNat = 12 || c.toNat = 28 || c.toNat = 29 ||
  c.toNat = 30 || c.toNat = 31 || c.toNat = 133 || c.toNat = 160 ||
  c.toNat = 0x1680 || (0x2000 ≤ c.toNat && c.toNat ≤ 0x200a) ||
  c.toNat = 0x2028 || c.toNat = 0x2029 || c.toNat = 0x202f ||
  c.toNat = 0x205f || c.toNat = 0x3000

/-- Character-level model of Python's `str.splitlines`: split at every
line-break character, treating CRLF as one break; a trailing break does
not produce a trailing empty line. -/
def splitLB : List Char → List (List Char)
  | [] => []
  | '\r' :: '\n' :: rest => [] :: splitLB rest
  | c :: rest =>
    if isLB c then [] :: splitLB rest
    else
      match splitLB rest with
      | [] => [c] :: []
      | l :: ls => (c :: l) :: ls

/-- Python's `str.splitlines` on strings. -/
def pySplitlines (s : String) : List String :=
  (splitLB s.data).map (fun l => String.mk l)

/-- Character-level model of Python's no-argument `str.split`:
maximal runs of non-whitespace characters, in order. -/
def splitWsAux : List Char → List Char → List (List Char)
  | [], acc => if acc = [] then [] else [acc.reverse]
  | c :: rest, acc =>
    if isPyWs c then
      if acc = [] then splitWsAux rest []
      else acc.reverse :: splitWsAux rest []
    else splitWsAux rest (c :: acc)

/-- Python's `str.split()` on strings. -/
def pySplitWs (s : String) : List String :=
  (splitWsAux s.data []).map (fun l => String.mk l)

/-- Python's `str.startswith`: the second string is a character-wise
initial segment of the first. -/
def startsWithPy (s pre : String) : Bool :=
  List.isPrefixOf pre.data s.data

/-- Python's `str.strip('"')`: remove all leading and trailing
double-quote characters. -/
def stripQuotes (s : String) : String :=
  String.mk (((s.data.dropWhile (fun c => c = '"')).reverse.dropWhile
      (fun c => c = '"')).reverse)

/-- Python's `"\n".join(...)`. -/
def joinNl : List String → String
  | [] => ""
  | [x] => x
  | x :: xs => x ++ "\n" ++ joinNl xs

/-- Plain concatenation of a list of strings (used only in statements
about the merger, not in the embedding of the source itself). -/
def strJoin : List String → String
  | [] => ""
  | x :: xs => x ++ strJoin xs

/-- `IGNORE` from merge.py. -/
def IGNORE : List String := ["main.cpp", "tests.h", "tests.cpp", "cpp.hint"]

/-- An absolute `pathlib.Path`, as its list of components (none of which
contains a separator; `pathlib` drops "." and empty components when
parsing but keeps ".."). -/
abbrev PathC := List String

/-- Python's `str(path)` for an absolute path: "/" before every
component.  (For the root path itself, which never occurs in a run, this
renders "" rather than "/".) -/
def strPath (p : PathC) : String :=
  p.foldl (fun acc c => acc ++ "/" ++ c) ""

/-- `should_ignore` from merge.py: `str(path).split(sep)[-1] in IGNORE`;
the last element of `str(path).split("/")` is the last component. -/
def should_ignore (p : PathC) : Bool :=
  IGNORE.contains (p.getLastD "")

/-- Split a character list at every occurrence of the path separator
(Python's `s.split("/")`; a separator-free string is one field). -/
def splitSepAux : List Char → List Char → List (List Char)
  | [], acc => [acc.reverse]
  | c :: rest, acc =>
    if c = '/' then acc.reverse :: splitSepAux rest []
    else splitSepAux rest (c :: acc)

/-- Parse a relative path string into `pathlib` components: split on the
separator, dropping empty components and ".". -/
def parseRel (s : String) : List String :=
  ((splitSepAux s.data []).map (fun l => String.mk l)).filter
    (fun c => !(c = "") && !(c = "."))

/-- `Path.joinpath`: append the parsed components; an absolute argument
replaces the base path. -/
def joinpath (p : PathC) (rel : String) : PathC :=
  if startsWithPy rel "/" then parseRel rel else p ++ parseRel rel

/-- OS-level resolution of "..": the path a plain `open(path)` actually
reaches (the OS walks "/b/.." back to "/", assuming the intermediate
directories exist). -/
def normalize (p : PathC) : PathC :=
  p.foldl (fun acc c => if c = ".." then acc.dropLast else acc ++ [c]) []

/-- A source tree: contents indexed by normalized absolute path. -/
abbrev Fs := List (PathC × String)

/-- Look a normalized path up in the tree. -/
def lookupFs : Fs → PathC → Option String
  | [], _ => none
  | (k, v) :: rest, key => if k = key then some v else lookupFs rest key

/-- `open(path); f.read()`: the OS resolves ".." components, then the
content is looked up; `none` models the `OSError` of a failed open. -/
def readFs (fs : Fs) (p : PathC) : Option String :=
  lookupFs fs (normalize p)

/-- `get_includes` from merge.py: of each line starting with
`#include "`, the second whitespace-separated token with all leading and
trailing double quotes stripped.  (Such a line always has a second
token, since the character at index 9 is a non-space `"`; `.getD 1 ""`
is Python's `[1]` on that always-long-enough list.) -/
def get_includes (s : String) : List String :=
  ((pySplitlines s).filter (fun x => startsWithPy x "#include \"")).map
    (fun x => stripQuotes ((pySplitWs x).getD 1 ""))

/-- `remove_includes` from merge.py. -/
def remove_includes (s : String) : String :=
  joinNl ((pySplitlines s).filter (fun x => !(startsWithPy x "#include \"")))

/-- `remove_pragma_once` from merge.py. -/
def remove_pragma_once (s : String) : String :=
  joinNl ((pySplitlines s).filter
    (fun line => !(startsWithPy line "#pragma once"))) ++ "\n"

/-- Errors that abort a run: `fuelOut` models exhaustion of the Python
call stack (RecursionError), `readErr` a failed `open`. -/
inductive PErr where
  | fuelOut : PErr
  | readErr : PathC → PErr
deriving DecidableEq

deriving instance DecidableEq for Except

/-- One iteration of the include loop of `process_file`
(`content += g(path.parent.joinpath(include))` with the updated `seen`
threaded through and an exception short-circuiting), abstracted over the
recursive call `g`. -/
def exStep (g : PathC → List String → Except PErr (String × List String))
    (parent : PathC) (acc : Except PErr (String × List String))
    (inc : String) : Except PErr (String × List String) :=
  match acc with
  | Except.error e => Except.error e
  | Except.ok (content, sn) =>
    match g (joinpath parent inc) sn with
    | Except.error e => Except.error e
    | Except.ok (t, sn2) => Except.ok (content ++ t, sn2)

/-- `process_file` from merge.py.  The global `seen` set is threaded as
a list of path strings (Python stores `str(path)`); the result pairs the
returned text with the updated `seen`.  The include loop
(`for include in get_includes(raw): content += process_file(...)`) is
the `foldl` of `exStep`; an exception short-circuits it. -/
def process_file (fs : Fs) : Nat → PathC → List String →
    Except PErr (String × List String)
  | 0, _, _ => .error .fuelOut
  | fuel + 1, path, seen =>
    if strPath path ∈ seen ∨ should_ignore path = true then
      .ok ("", seen)
    else
      match readFs fs path with
      | none => .error (.readErr path)
      | some raw =>
        match (get_includes raw).foldl
            (exStep (fun p s => process_file fs fuel p s) path.dropLast)
            (Except.ok ("", strPath path :: seen)) with
        | .error e => .error e
        | .ok (content, seen2) =>
          .ok (content ++ remove_includes raw ++ "\n\n", seen2)

/-- The include loop of `process_file`, written as plain recursion on
the include list: flatten each resolved include in directive order,
threading `seen`, and concatenate the results. -/
def processIncludes (fs : Fs) (fuel : Nat) :
    List String → PathC → List String → Except PErr (String × List String)
  | [], _, seen => .ok ("", seen)
  | inc :: rest, parent, seen =>
    match process_file fs fuel (joinpath parent inc) seen with
    | .error e => .error e
    | .ok (t, seen2) =>
      match processIncludes fs fuel rest parent seen2 with
      | .error e => .error e
      | .ok (u, seen3) => .ok (t ++ u, seen3)

/-- The unit pass of `main`: `"".join(process_file(f) for f in source)`,
threading the shared `seen`. -/
def processUnits (fs : Fs) (fuel : Nat) :
    List PathC → List String → Except PErr (String × List String)
  | [], seen => .ok ("", seen)
  | u :: rest, seen =>
    match process_file fs fuel u seen with
    | .error e => .error e
    | .ok (t, seen2) =>
      match processUnits fs fuel rest seen2 with
      | .error e => .error e
      | .ok (s, seen3) => .ok (t ++ s, seen3)

/-- The `fmt` template of `main`, with the two sections substituted. -/
def fmtTemplate (decl impl : String) : String :=
  "\n" ++ decl ++
  "\n///////////////// Implementation ////////////////////////\n#ifdef WINGS_IMPL\n"
  ++ impl ++ "\n#endif // #ifdef WINGS_IMPL\n"

/-- `main` from merge.py, minus the out-of-scope filesystem globbing and
writing: filter ignored names out of the discovered unit files, flatten
the root with a fresh `seen`, flatten the units with the same `seen`,
substitute into the template, and strip pragma lines; an exception in
either pass aborts before any output exists. -/
def assemble (fs : Fs) (fuel : Nat) (root : PathC) (units : List PathC) :
    Except PErr String :=
  match process_file fs fuel root [] with
  | .error e => .error e
  | .ok (decl, seen1) =>
    match processUnits fs fuel (units.filter (fun f => !should_ignore f)) seen1 with
    | .error e => .error e
    | .ok (impl, _) => .ok (remove_pragma_once (fmtTemplate decl impl))

/-! ### Statement-level definitions (not part of the embedding) -/

/-- Number of occurrences of `pat` as a substring of `s` (number of
character positions at which `pat` starts). -/
def countOcc (pat s : String) : Nat :=
  ((List.range (s.data.length + 1)).filter
    (fun i => List.isPrefixOf pat.data (s.data.drop i))).length

/-- The contribution a single file makes to the flattened output: its
directive-stripped body followed by the blank-line separator. -/
def bodyOf (fs : Fs) (q : PathC) : String :=
  remove_includes ((readFs fs q).getD "") ++ "\n\n"

/-- A string has no line-break characters. -/
def noLBStr (s : String) : Prop := ∀ c ∈ s.data, isLB c = false

/-- The output of a (partial) flattening pass that turned `seen` into
`seen'` consists of the bodies of the newly visited files, each exactly
once: there is a list `l` of paths whose path strings are pairwise
distinct and not previously visited, such that `seen'` is `seen` plus
exactly those strings, and the output is the concatenation of those
files' stripped bodies in some order given by `l`. -/
def NewlyVisited (fs : Fs) (seen seen' : List String) (out : String) : Prop :=
  ∃ l : List PathC,
    List.Perm seen' (l.map strPath ++ seen) ∧
    (l.map strPath).Nodup ∧
    (∀ x ∈ l.map strPath, x ∉ seen) ∧
    out = strJoin (l.map (bodyOf fs))

/-- Example tree of the end-to-end example: root `R.h` includes `a.x`
then has body `R-body`; `a.x` has body `A-body`; unit `U.cpp` includes
`a.x` then has body `U-body`. -/
def exFs : Fs :=
  [(["r", "R.h"], "#include \"a.x\"\nR-body"),
   (["r", "a.x"], "A-body"),
   (["r", "U.cpp"], "#include \"a.x\"\nU-body")]

/-- Tree where the same file `a.x` is reached under two distinct
relative spellings, "a.x" and "sub/../a.x" (directory `sub` exists). -/
def dupFs : Fs :=
  [(["r", "R.h"], "#include \"a.x\"\n#include \"sub/../a.x\"\nR-body"),
   (["r", "a.x"], "A-body"),
   (["r", "sub", "d.h"], "")]

/-- Tree where `a.x` includes itself under the spelling "b/../a.x"
(directory `b` exists), so every visit constructs a fresh path string. -/
def cycFs : Fs :=
  [(["r", "a.x"], "#include \"b/../a.x\""),
   (["r", "b", "d.h"], "")]

/-- Tree with a two-cycle: `A.h` includes `B.h` and `B.h` includes
`A.h`, each by its plain filename. -/
def abFs : Fs :=
  [(["r", "A.h"], "#include \"B.h\"\nA-body"),
   (["r", "B.h"], "#include \"A.h\"\nB-body")]

/-- The directory part of the i-th path reached in the `cycFs` run:
`/r`, `/r/b/..`, `/r/b/../b/..`, ... -/
def cycComps : Nat → PathC
  | 0 => ["r"]
  | i + 1 => cycComps i ++ ["b", ".."]

/-- The i-th path the `cycFs` run recurses into; all of them resolve to
`/r/a.x` but all their strings are distinct. -/
def cycPath (i : Nat) : PathC := cycComps i ++ ["a.x"]

/-- The visited set after the first `i` levels of the `cycFs` run. -/
def cycSeen : Nat → List String
  | 0 => []
  | i + 1 => strPath (cycPath i) :: cycSeen i

/-! ### Basic facts about the text layer -/

theorem data_append (a b : String) : (a ++ b).data = a.data ++ b.data :=
  String.data_append a b

theorem splitLB_nil : splitLB [] = [] := rfl

theorem splitLB_newline (rest : List Char) :
    splitLB ('\n' :: rest) = [] :: splitLB rest := rfl

theorem splitLB_crlf (rest : List Char) :
    splitLB ('\r' :: '\n' :: rest) = [] :: splitLB rest := rfl

theorem splitLB_cons_notLB (c : Char) (rest : List Char) (h : isLB c = false) :
    splitLB (c :: rest) =
      match splitLB rest with
      | [] => [c] :: []
      | l :: ls => (c :: l) :: ls := by
  rw [splitLB.eq_def]
  split
  · rename_i heq; exact absurd heq (by simp)
  · rename_i rest2 heq
    rw [List.cons.injEq] at heq
    exact absurd (heq.1 ▸ h) (by decide)
  · rename_i c2 rest2 hpat heq
    rw [List.cons.injEq] at heq
    obtain ⟨h1, h2⟩ := heq
    subst h1; subst h2
    rw [if_neg (by rw [h]; exact Bool.false_ne_true)]

theorem splitLB_cons_LB (c : Char) (rest : List Char) (h : isLB c = true)
    (hp : ∀ r2, c = '\r' → rest = '\n' :: r2 → False) :
    splitLB (c :: rest) = [] :: splitLB rest := by
  rw [splitLB.eq_def]
  split
  · rename_i heq; exact absurd heq (by simp)
  · rename_i rest2 heq
    rw [List.cons.injEq] at heq
    exact (hp rest2 heq.1 heq.2).elim
  · rename_i c2 rest2 hpat heq
    rw [List.cons.injEq] at heq
    obtain ⟨h1, h2⟩ := heq
    subst h1; subst h2
    rw [if_pos h]

/-- Every line produced by the splitter is free of line breaks. -/
theorem noLB_of_mem_splitLB :
    ∀ cs : List Char, ∀ l ∈ splitLB cs, ∀ c ∈ l, isLB c = false := by
  intro cs
  induction cs using splitLB.induct with
  | case1 => intro l hl; simp [splitLB_nil] at hl
  | case2 rest ih =>
    intro l hl
    rw [splitLB_crlf] at hl
    rcases List.mem_cons.mp hl with h | h
    · intro c hc; rw [h] at hc; simp at hc
    · exact ih l h
  | case3 c rest hpat hc ih =>
    intro l hl
    rw [splitLB_cons_LB c rest hc (fun r2 hr hn => hpat r2 hr hn)] at hl
    rcases List.mem_cons.mp hl with h | h
    · intro c2 hc2; rw [h] at hc2; simp at hc2
    · exact ih l h
  | case4 c rest hpat hc hnil ih =>
    intro l hl
    have hcf : isLB c = false := by simpa using hc
    rw [splitLB_cons_notLB c rest hcf, hnil] at hl
    rcases List.mem_cons.mp hl with h | h
    · intro c2 hc2
      rw [h] at hc2
      rcases List.mem_cons.mp hc2 with h2 | h2
      · rw [h2]; exact hcf
      · simp at h2
    · simp at h
  | case5 c rest hpat hc l0 ls0 heq ih =>
    intro l hl
    have hcf : isLB c = false := by simpa using hc
    rw [splitLB_cons_notLB c rest hcf, heq] at hl
    rcases List.mem_cons.mp hl with h | h
    · intro c2 hc2
      rw [h] at hc2
      rcases List.mem_cons.mp hc2 with h2 | h2
      · rw [h2]; exact hcf
      · exact ih l0 (heq ▸ List.mem_cons_self l0 ls0) c2 h2
    · exact ih l (heq ▸ List.mem_cons_of_mem l0 h)

theorem splitLB_append_newline (x rest : List Char)
    (hx : ∀ c ∈ x, isLB c = false) :
    splitLB (x ++ '\n' :: rest) = x :: splitLB rest := by
  induction x with
  | nil => exact splitLB_newline rest
  | cons c x ih =>
    have hc : isLB c = false := hx c (List.mem_cons_self c x)
    have hx2 : ∀ c2 ∈ x, isLB c2 = false :=
      fun c2 h2 => hx c2 (List.mem_cons_of_mem c h2)
    rw [List.cons_append, splitLB_cons_notLB c _ hc, ih hx2]

/-- Every line of `pySplitlines` is free of line breaks. -/
theorem pySplitlines_noLB (s : String) :
    ∀ l ∈ pySplitlines s, noLBStr l := by
  intro l hl
  obtain ⟨l2, hl2, hmk⟩ := List.mem_map.mp hl
  intro c hc
  rw [← hmk] at hc
  exact noLB_of_mem_splitLB s.data l2 hl2 c hc

/-- Splitting the newline-join of break-free lines, with the trailing
newline that `remove_pragma_once` adds, recovers exactly the lines. -/
theorem pySplitlines_joinNl (ls : List String) (hne : ls ≠ [])
    (h : ∀ l ∈ ls, noLBStr l) :
    pySplitlines (joinNl ls ++ "\n") = ls := by
  induction ls with
  | nil => exact absurd rfl hne
  | cons x xs ih =>
    cases xs with
    | nil =>
      show pySplitlines (x ++ "\n") = [x]
      unfold pySplitlines
      rw [data_append]
      rw [show ("\n" : String).data = ['\n'] from rfl]
      rw [show x.data ++ ['\n'] = x.data ++ '\n' :: [] from rfl]
      rw [splitLB_append_newline x.data [] (h x (List.mem_cons_self x []))]
      rfl
    | cons y ys =>
      show pySplitlines ((x ++ "\n" ++ joinNl (y :: ys)) ++ "\n") = x :: y :: ys
      have key : (joinNl (y :: ys) ++ "\n").data =
          (joinNl (y :: ys)).data ++ ['\n'] := by
        rw [data_append]
      unfold pySplitlines
      rw [data_append, data_append, data_append]
      rw [show ("\n" : String).data = ['\n'] from rfl]
      rw [List.append_assoc x.data ['\n'], List.singleton_append,
        List.append_assoc x.data, List.cons_append]
      rw [splitLB_append_newline x.data _ (h x (List.mem_cons_self x _))]
      have ih2 := ih (by simp)
        (fun l hl => h l (List.mem_cons_of_mem x hl))
      unfold pySplitlines at ih2
      rw [key] at ih2
      rw [List.map_cons, ih2]

/-- The lines of `remove_pragma_once s` are exactly the kept lines of
`s`; when no line is kept the result is a bare newline, one empty line. -/
theorem lines_remove_pragma_once (s : String) :
    pySplitlines (remove_pragma_once s) =
      if ((pySplitlines s).filter
          (fun line => !(startsWithPy line "#pragma once"))) = []
      then [""]
      else (pySplitlines s).filter
          (fun line => !(startsWithPy line "#pragma once")) := by
  have hrpo : remove_pragma_once s =
      joinNl ((pySplitlines s).filter
        (fun line => !(startsWithPy line "#pragma once"))) ++ "\n" := rfl
  by_cases h : ((pySplitlines s).filter
      (fun line => !(startsWithPy line "#pragma once"))) = []
  · rw [if_pos h, hrpo, h]
    rfl
  · rw [if_neg h, hrpo]
    refine pySplitlines_joinNl _ h (fun l hl => ?_)
    exact pySplitlines_noLB s l (List.mem_of_mem_filter hl)

/-! ### Unfolding `process_file` through `processIncludes` -/

theorem process_file_zero (fs : Fs) (path : PathC) (seen : List String) :
    process_file fs 0 path seen = Except.error PErr.fuelOut := rfl

theorem processIncludes_nil (fs : Fs) (fuel : Nat) (parent : PathC)
    (seen : List String) :
    processIncludes fs fuel [] parent seen = Except.ok ("", seen) := rfl

theorem processIncludes_cons (fs : Fs) (fuel : Nat) (inc : String)
    (rest : List String) (parent : PathC) (seen : List String) :
    processIncludes fs fuel (inc :: rest) parent seen =
      match process_file fs fuel (joinpath parent inc) seen with
      | Except.error e => Except.error e
      | Except.ok (t, seen2) =>
        match processIncludes fs fuel rest parent seen2 with
        | Except.error e => Except.error e
        | Except.ok (u, seen3) => Except.ok (t ++ u, seen3) := rfl

theorem exStep_ok (g : PathC → List String → Except PErr (String × List String))
    (parent : PathC) (content : String) (sn : List String) (inc : String) :
    exStep g parent (Except.ok (content, sn)) inc =
      match g (joinpath parent inc) sn with
      | Except.error e => Except.error e
      | Except.ok (t, sn2) => Except.ok (content ++ t, sn2) := rfl

theorem foldl_exStep_error
    (g : PathC → List String → Except PErr (String × List String))
    (parent : PathC) (e : PErr) :
    ∀ l : List String, l.foldl (exStep g parent) (Except.error e) =
      Except.error e := by
  intro l
  induction l with
  | nil => rfl
  | cons a as iha => rw [List.foldl_cons]; exact iha

/-- The include loop of `process_file`, as a fold, equals
`processIncludes` with the accumulated prefix re-attached. -/
theorem foldl_includes (fs : Fs) (fuel : Nat) (parent : PathC) :
    ∀ (incs : List String) (s0 : String) (seen : List String),
      incs.foldl (exStep (process_file fs fuel) parent) (Except.ok (s0, seen)) =
      match processIncludes fs fuel incs parent seen with
      | Except.error e => Except.error e
      | Except.ok (t, sn) => Except.ok (s0 ++ t, sn) := by
  intro incs
  induction incs with
  | nil =>
    intro s0 seen
    show Except.ok (s0, seen) = Except.ok (s0 ++ "", seen)
    rw [String.append_empty]
  | cons inc rest ih =>
    intro s0 seen
    rw [List.foldl_cons, processIncludes_cons, exStep_ok]
    cases hpf : process_file fs fuel (joinpath parent inc) seen with
    | error e =>
      exact foldl_exStep_error (process_file fs fuel) parent e rest
    | ok p =>
      obtain ⟨t, sn2⟩ := p
      show List.foldl _ (Except.ok (s0 ++ t, sn2)) rest =
        match (match processIncludes fs fuel rest parent sn2 with
          | Except.error e => Except.error e
          | Except.ok (u, sn3) => Except.ok (t ++ u, sn3)) with
        | Except.error e => Except.error e
        | Except.ok (t2, sn) => Except.ok (s0 ++ t2, sn)
      rw [ih (s0 ++ t) sn2]
      cases hpi : processIncludes fs fuel rest parent sn2 with
      | error e => rfl
      | ok q =>
        obtain ⟨u, sn3⟩ := q
        show Except.ok (s0 ++ t ++ u, sn3) = Except.ok (s0 ++ (t ++ u), sn3)
        rw [String.append_assoc]

/-- One step of `process_file`, with the include loop expressed through
`processIncludes`. -/
theorem process_file_succ (fs : Fs) (fuel : Nat) (path : PathC)
    (seen : List String) :
    process_file fs (fuel + 1) path seen =
      if strPath path ∈ seen ∨ should_ignore path = true then
        Except.ok ("", seen)
      else
        match readFs fs path with
        | none => Except.error (PErr.readErr path)
        | some raw =>
          match processIncludes fs fuel (get_includes raw) path.dropLast
              (strPath path :: seen) with
          | Except.error e => Except.error e
          | Except.ok (content, seen2) =>
            Except.ok (content ++ remove_includes raw ++ "\n\n", seen2) := by
  show (if strPath path ∈ seen ∨ should_ignore path = true then
        Except.ok ("", seen)
      else
        match readFs fs path with
        | none => Except.error (PErr.readErr path)
        | some raw =>
          match (get_includes raw).foldl
              (exStep (process_file fs fuel) path.dropLast)
              (Except.ok ("", strPath path :: seen)) with
          | Except.error e => Except.error e
          | Except.ok (content, seen2) =>
            Except.ok (content ++ remove_includes raw ++ "\n\n", seen2)) = _
  by_cases h : strPath path ∈ seen ∨ should_ignore path = true
  · rw [if_pos h, if_pos h]
  · rw [if_neg h, if_neg h]
    cases hr : readFs fs path with
    | none => rfl
    | some raw =>
      show (match (get_includes raw).foldl
            (exStep (process_file fs fuel) path.dropLast)
            (Except.ok ("", strPath path :: seen)) with
          | Except.error e => Except.error e
          | Except.ok (content, seen2) =>
            Except.ok (content ++ remove_includes raw ++ "\n\n", seen2)) =
        match processIncludes fs fuel (get_includes raw) path.dropLast
            (strPath path :: seen) with
        | Except.error e => Except.error e
        | Except.ok (content, seen2) =>
          Except.ok (content ++ remove_includes raw ++ "\n\n", seen2)
      rw [foldl_includes fs fuel path.dropLast (get_includes raw) ""
        (strPath path :: seen)]
      cases hpi : processIncludes fs fuel (get_includes raw) path.dropLast
          (strPath path :: seen) with
      | error e => rfl
      | ok p =>
        obtain ⟨content, seen2⟩ := p
        show Except.ok ("" ++ content ++ remove_includes raw ++ "\n\n", seen2) = _
        rw [show ("" : String) ++ content = content from rfl]

/-! ### Inversion lemmas -/

theorem processIncludes_cons_ok (fs : Fs) (fuel : Nat) (inc : String)
    (rest : List String) (parent : PathC) (seen : List String)
    (r : String × List String) :
    processIncludes fs fuel (inc :: rest) parent seen = Except.ok r →
    ∃ t sn2 u sn3,
      process_file fs fuel (joinpath parent inc) seen = Except.ok (t, sn2) ∧
      processIncludes fs fuel rest parent sn2 = Except.ok (u, sn3) ∧
      r = (t ++ u, sn3) := by
  rw [processIncludes_cons]
  cases hpf : process_file fs fuel (joinpath parent inc) seen with
  | error e =>
    intro h
    exact absurd (show (Except.error e : Except PErr (String × List String)) =
      Except.ok r from h) (by simp)
  | ok p =>
    obtain ⟨t, sn2⟩ := p
    intro h
    have h2 : (match processIncludes fs fuel rest parent sn2 with
      | Except.error e => Except.error e
      | Except.ok (u, sn3) => Except.ok (t ++ u, sn3)) = Except.ok r := h
    cases hpi : processIncludes fs fuel rest parent sn2 with
    | error e =>
      rw [hpi] at h2
      exact absurd (show (Except.error e : Except PErr (String × List String)) =
        Except.ok r from h2) (by simp)
    | ok q =>
      obtain ⟨u, sn3⟩ := q
      rw [hpi] at h2
      have h3 : (Except.ok ((t ++ u, sn3)) :
        Except PErr (String × List String)) = Except.ok r := h2
      refine ⟨t, sn2, u, sn3, rfl, hpi, ?_⟩
      injection h3 with h4
      exact h4.symm

theorem processIncludes_cons_err (fs : Fs) (fuel : Nat) (inc : String)
    (rest : List String) (parent : PathC) (seen : List String) (e : PErr) :
    processIncludes fs fuel (inc :: rest) parent seen = Except.error e →
    process_file fs fuel (joinpath parent inc) seen = Except.error e ∨
    ∃ t sn2,
      process_file fs fuel (joinpath parent inc) seen = Except.ok (t, sn2) ∧
      processIncludes fs fuel rest parent sn2 = Except.error e := by
  rw [processIncludes_cons]
  cases hpf : process_file fs fuel (joinpath parent inc) seen with
  | error e2 =>
    intro h
    have h2 : (Except.error e2 : Except PErr (String × List String)) =
      Except.error e := h
    injection h2 with h3
    exact Or.inl (by rw [h3])
  | ok p =>
    obtain ⟨t, sn2⟩ := p
    intro h
    have h2 : (match processIncludes fs fuel rest parent sn2 with
      | Except.error e => Except.error e
      | Except.ok (u, sn3) => Except.ok (t ++ u, sn3)) = Except.error e := h
    cases hpi : processIncludes fs fuel rest parent sn2 with
    | error e2 =>
      rw [hpi] at h2
      have h3 : (Except.error e2 : Except PErr (String × List String)) =
        Except.error e := h2
      injection h3 with h4
      exact Or.inr ⟨t, sn2, rfl, h4 ▸ hpi⟩
    | ok q =>
      obtain ⟨u, sn3⟩ := q
      rw [hpi] at h2
      exact absurd (show (Except.ok (t ++ u, sn3) :
        Except PErr (String × List String)) = Except.error e from h2) (by simp)

theorem processUnits_cons (fs : Fs) (fuel : Nat) (u : PathC)
    (rest : List PathC) (seen : List String) :
    processUnits fs fuel (u :: rest) seen =
      match process_file fs fuel u seen with
      | Except.error e => Except.error e
      | Except.ok (t, seen2) =>
        match processUnits fs fuel rest seen2 with
        | Except.error e => Except.error e
        | Except.ok (s, seen3) => Except.ok (t ++ s, seen3) := rfl

theorem processUnits_cons_ok (fs : Fs) (fuel : Nat) (u : PathC)
    (rest : List PathC) (seen : List String) (r : String × List String) :
    processUnits fs fuel (u :: rest) seen = Except.ok r →
    ∃ t sn2 s sn3,
      process_file fs fuel u seen = Except.ok (t, sn2) ∧
      processUnits fs fuel rest sn2 = Except.ok (s, sn3) ∧
      r = (t ++ s, sn3) := by
  rw [processUnits_cons]
  cases hpf : process_file fs fuel u seen with
  | error e =>
    intro h
    exact absurd (show (Except.error e : Except PErr (String × List String)) =
      Except.ok r from h) (by simp)
  | ok p =>
    obtain ⟨t, sn2⟩ := p
    intro h
    have h2 : (match processUnits fs fuel rest sn2 with
      | Except.error e => Except.error e
      | Except.ok (s, sn3) => Except.ok (t ++ s, sn3)) = Except.ok r := h
    cases hpu : processUnits fs fuel rest sn2 with
    | error e =>
      rw [hpu] at h2
      exact absurd (show (Except.error e : Except PErr (String × List String)) =
        Except.ok r from h2) (by simp)
    | ok q =>
      obtain ⟨s, sn3⟩ := q
      rw [hpu] at h2
      have h3 : (Except.ok (t ++ s, sn3) :
        Except PErr (String × List String)) = Except.ok r := h2
      injection h3 with h4
      exact ⟨t, sn2, s, sn3, rfl, hpu, h4.symm⟩

/-- Inversion of a successful `process_file` step. -/
theorem process_file_ok_inv (fs : Fs) (fuel : Nat) (path : PathC)
    (seen : List String) (out : String) (seen' : List String) :
    process_file fs (fuel + 1) path seen = Except.ok (out, seen') →
    ((strPath path ∈ seen ∨ should_ignore path = true) ∧
      out = "" ∧ seen' = seen) ∨
    (strPath path ∉ seen ∧ should_ignore path = false ∧
      ∃ raw content,
        readFs fs path = some raw ∧
        processIncludes fs fuel (get_includes raw) path.dropLast
          (strPath path :: seen) = Except.ok (content, seen') ∧
        out = content ++ remove_includes raw ++ "\n\n") := by
  rw [process_file_succ]
  by_cases h : strPath path ∈ seen ∨ should_ignore path = true
  · rw [if_pos h]
    intro h2
    have h3 : (Except.ok ("", seen) : Except PErr (String × List String)) =
      Except.ok (out, seen') := h2
    injection h3 with h4
    exact Or.inl ⟨h, (Prod.mk.injEq .. ▸ h4).1.symm, (Prod.mk.injEq .. ▸ h4).2.symm⟩
  · rw [if_neg h]
    push_neg at h
    obtain ⟨hmem, hign⟩ := h
    cases hr : readFs fs path with
    | none =>
      intro h2
      exact absurd (show (Except.error (PErr.readErr path) :
        Except PErr (String × List String)) = Except.ok (out, seen') from h2)
        (by simp)
    | some raw =>
      intro h2
      have h3 : (match processIncludes fs fuel (get_includes raw) path.dropLast
          (strPath path :: seen) with
        | Except.error e => Except.error e
        | Except.ok (content, seen2) =>
          Except.ok (content ++ remove_includes raw ++ "\n\n", seen2)) =
          Except.ok (out, seen') := h2
      cases hpi : processIncludes fs fuel (get_includes raw) path.dropLast
          (strPath path :: seen) with
      | error e =>
        rw [hpi] at h3
        exact absurd (show (Except.error e :
          Except PErr (String × List String)) = Except.ok (out, seen') from h3)
          (by simp)
      | ok q =>
        obtain ⟨content, sn2⟩ := q
        rw [hpi] at h3
        have h4 : (Except.ok (content ++ remove_includes raw ++ "\n\n", sn2) :
          Except PErr (String × List String)) = Except.ok (out, seen') := h3
        injection h4 with h5
        have h6 := Prod.mk.injEq .. ▸ h5
        refine Or.inr ⟨hmem, Bool.not_eq_true _ ▸ hign, raw, content, rfl, ?_, h6.1.symm⟩
        rw [← h6.2]
        exact hpi

/-- Unfolding `assemble`. -/
theorem assemble_eq (fs : Fs) (fuel : Nat) (root : PathC)
    (units : List PathC) :
    assemble fs fuel root units =
      match process_file fs fuel root [] with
      | Except.error e => Except.error e
      | Except.ok (decl, seen1) =>
        match processUnits fs fuel (units.filter (fun f => !should_ignore f))
            seen1 with
        | Except.error e => Except.error e
        | Except.ok (impl, _) =>
          Except.ok (remove_pragma_once (fmtTemplate decl impl)) := rfl

/-- Inversion of a successful `assemble`. -/
theorem assemble_ok_inv (fs : Fs) (fuel : Nat) (root : PathC)
    (units : List PathC) (merged : String) :
    assemble fs fuel root units = Except.ok merged →
    ∃ decl seen1 impl seen2,
      process_file fs fuel root [] = Except.ok (decl, seen1) ∧
      processUnits fs fuel (units.filter (fun f => !should_ignore f)) seen1 =
        Except.ok (impl, seen2) ∧
      merged = remove_pragma_once (fmtTemplate decl impl) := by
  rw [assemble_eq]
  cases hpf : process_file fs fuel root [] with
  | error e =>
    intro h
    exact absurd (show (Except.error e : Except PErr String) =
      Except.ok merged from h) (by simp)
  | ok p =>
    obtain ⟨decl, seen1⟩ := p
    intro h
    have h2 : (match processUnits fs fuel
        (units.filter (fun f => !should_ignore f)) seen1 with
      | Except.error e => Except.error e
      | Except.ok (impl, _) =>
        Except.ok (remove_pragma_once (fmtTemplate decl impl))) =
        Except.ok merged := h
    cases hpu : processUnits fs fuel
        (units.filter (fun f => !should_ignore f)) seen1 with
    | error e =>
      rw [hpu] at h2
      exact absurd (show (Except.error e : Except PErr String) =
        Except.ok merged from h2) (by simp)
    | ok q =>
      obtain ⟨impl, seen2⟩ := q
      rw [hpu] at h2
      have h3 : (Except.ok (remove_pragma_once (fmtTemplate decl impl)) :
        Except PErr String) = Except.ok merged := h2
      injection h3 with h4
      exact ⟨decl, seen1, impl, seen2, rfl, hpu, h4.symm⟩

/-! ### Fuel-irrelevance: a successful result is stable under more fuel -/

theorem mono_pi_of (fs : Fs) (n m : Nat)
    (Hpf : ∀ p seen r, process_file fs n p seen = Except.ok r →
      process_file fs m p seen = Except.ok r) :
    ∀ (incs : List String) (parent : PathC) (seen : List String)
      (r : String × List String),
      processIncludes fs n incs parent seen = Except.ok r →
      processIncludes fs m incs parent seen = Except.ok r := by
  intro incs
  induction incs with
  | nil =>
    intro parent seen r h
    rw [processIncludes_nil] at h ⊢
    exact h
  | cons inc rest ih =>
    intro parent seen r h
    obtain ⟨t, sn2, u, sn3, hpf, hpi, hr⟩ :=
      processIncludes_cons_ok fs n inc rest parent seen r h
    rw [processIncludes_cons, Hpf _ _ _ hpf]
    show (match processIncludes fs m rest parent sn2 with
      | Except.error e => Except.error e
      | Except.ok (u2, sn4) => Except.ok (t ++ u2, sn4)) = Except.ok r
    rw [ih parent sn2 (u, sn3) hpi, hr]

theorem mono_pf (fs : Fs) : ∀ n m : Nat, n ≤ m →
    ∀ (p : PathC) (seen : List String) (r : String × List String),
      process_file fs n p seen = Except.ok r →
      process_file fs m p seen = Except.ok r := by
  intro n
  induction n with
  | zero =>
    intro m hm p seen r h
    exact absurd (show (Except.error PErr.fuelOut :
      Except PErr (String × List String)) = Except.ok r from h) (by simp)
  | succ n ih =>
    intro m hm p seen r h
    obtain ⟨m', rfl⟩ : ∃ m', m = m' + 1 := ⟨m - 1, by omega⟩
    have hm' : n ≤ m' := by omega
    obtain ⟨out, seen'⟩ := r
    rcases process_file_ok_inv fs n p seen out seen' h with
      ⟨hc, ho, hs⟩ | ⟨hmem, hign, raw, content, hr, hpi, hout⟩
    · rw [process_file_succ, if_pos hc, ho, hs]
    · have hni : ¬(strPath p ∈ seen ∨ should_ignore p = true) := by
        rw [hign]; simp [hmem]
      rw [process_file_succ, if_neg hni, hr]
      show (match processIncludes fs m' (get_includes raw) p.dropLast
          (strPath p :: seen) with
        | Except.error e => Except.error e
        | Except.ok (content2, seen2) =>
          Except.ok (content2 ++ remove_includes raw ++ "\n\n", seen2)) =
        Except.ok (out, seen')
      rw [mono_pi_of fs n m' (ih m' hm') (get_includes raw) p.dropLast
        (strPath p :: seen) (content, seen') hpi, hout]

theorem mono_pu (fs : Fs) (n m : Nat) (hm : n ≤ m) :
    ∀ (us : List PathC) (seen : List String) (r : String × List String),
      processUnits fs n us seen = Except.ok r →
      processUnits fs m us seen = Except.ok r := by
  intro us
  induction us with
  | nil =>
    intro seen r h
    exact h
  | cons u rest ih =>
    intro seen r h
    obtain ⟨t, sn2, s, sn3, hpf, hpu, hr⟩ :=
      processUnits_cons_ok fs n u rest seen r h
    rw [processUnits_cons, mono_pf fs n m hm _ _ _ hpf]
    show (match processUnits fs m rest sn2 with
      | Except.error e => Except.error e
      | Except.ok (s2, sn4) => Except.ok (t ++ s2, sn4)) = Except.ok r
    rw [ih sn2 (s, sn3) hpu, hr]

theorem mono_assemble (fs : Fs) (n m : Nat) (hm : n ≤ m) (root : PathC)
    (units : List PathC) (merged : String)
    (h : assemble fs n root units = Except.ok merged) :
    assemble fs m root units = Except.ok merged := by
  obtain ⟨decl, seen1, impl, seen2, hpf, hpu, hmg⟩ :=
    assemble_ok_inv fs n root units merged h
  rw [assemble_eq, mono_pf fs n m hm _ _ _ hpf]
  show (match processUnits fs m (units.filter (fun f => !should_ignore f))
      seen1 with
    | Except.error e => Except.error e
    | Except.ok (impl2, _) =>
      Except.ok (remove_pragma_once (fmtTemplate decl impl2))) =
    Except.ok merged
  rw [mono_pu fs n m hm _ _ _ hpu, hmg]

/-! ### Each newly visited file contributes its body exactly once -/

theorem strJoin_append : ∀ a b : List String,
    strJoin (a ++ b) = strJoin a ++ strJoin b := by
  intro a b
  induction a with
  | nil =>
    show strJoin b = "" ++ strJoin b
    rfl
  | cons x xs ih =>
    show x ++ strJoin (xs ++ b) = (x ++ strJoin xs) ++ strJoin b
    rw [ih, String.append_assoc]

theorem newly_visited_refl (fs : Fs) (seen : List String) :
    NewlyVisited fs seen seen "" :=
  ⟨[], by simp, List.nodup_nil, by simp, rfl⟩

theorem inv_pi_of (fs : Fs) (n : Nat)
    (Hpf : ∀ p seen out seen', process_file fs n p seen = Except.ok (out, seen') →
      NewlyVisited fs seen seen' out) :
    ∀ (incs : List String) (parent : PathC) (seen : List String)
      (out : String) (seen' : List String),
      processIncludes fs n incs parent seen = Except.ok (out, seen') →
      NewlyVisited fs seen seen' out := by
  intro incs
  induction incs with
  | nil =>
    intro parent seen out seen' h
    rw [processIncludes_nil] at h
    injection h with h2
    have h3 := Prod.mk.injEq .. ▸ h2
    rw [← h3.1, ← h3.2]
    exact newly_visited_refl fs seen
  | cons inc rest ih =>
    intro parent seen out seen' h
    obtain ⟨t, sn2, u, sn3, hpf, hpi, hr⟩ :=
      processIncludes_cons_ok fs n inc rest parent seen (out, seen') h
    have hout : out = t ++ u := (Prod.mk.injEq .. ▸ hr).1
    have hsn : seen' = sn3 := (Prod.mk.injEq .. ▸ hr).2
    obtain ⟨l1, hperm1, hnd1, hfr1, ht⟩ := Hpf _ _ _ _ hpf
    obtain ⟨l2, hperm2, hnd2, hfr2, hu⟩ := ih parent sn2 u sn3 hpi
    have hsub1 : ∀ x, x ∈ sn2 ↔ x ∈ l1.map strPath ++ seen :=
      fun x => hperm1.mem_iff
    refine ⟨l1 ++ l2, ?_, ?_, ?_, ?_⟩
    · rw [hsn, List.map_append]
      have s1 : List.Perm sn3 (l2.map strPath ++ sn2) := hperm2
      have s2 : List.Perm (l2.map strPath ++ sn2)
          (l2.map strPath ++ (l1.map strPath ++ seen)) :=
        List.Perm.append_left _ hperm1
      have s3 : l2.map strPath ++ (l1.map strPath ++ seen) =
          (l2.map strPath ++ l1.map strPath) ++ seen :=
        (List.append_assoc _ _ _).symm
      have s4 : List.Perm ((l2.map strPath ++ l1.map strPath) ++ seen)
          ((l1.map strPath ++ l2.map strPath) ++ seen) :=
        List.Perm.append_right _ List.perm_append_comm
      exact ((s1.trans s2).trans (s3 ▸ List.Perm.refl _)).trans s4
    · rw [List.map_append]
      refine List.Nodup.append hnd1 hnd2 ?_
      intro a ha1 ha2
      exact hfr2 a ha2 ((hsub1 a).mpr (List.mem_append_left _ ha1))
    · rw [List.map_append]
      intro x hx hxs
      rcases List.mem_append.mp hx with h1 | h1
      · exact hfr1 x h1 hxs
      · exact hfr2 x h1 ((hsub1 x).mpr (List.mem_append_right _ hxs))
    · rw [hout, List.map_append, strJoin_append, ht, hu]

theorem inv_pf (fs : Fs) : ∀ (n : Nat) (p : PathC) (seen : List String)
    (out : String) (seen' : List String),
    process_file fs n p seen = Except.ok (out, seen') →
    NewlyVisited fs seen seen' out := by
  intro n
  induction n with
  | zero =>
    intro p seen out seen' h
    exact absurd (show (Except.error PErr.fuelOut :
      Except PErr (String × List String)) = Except.ok (out, seen') from h)
      (by simp)
  | succ n ih =>
    intro p seen out seen' h
    rcases process_file_ok_inv fs n p seen out seen' h with
      ⟨_, ho, hs⟩ | ⟨hmem, hign, raw, content, hr, hpi, hout⟩
    · rw [ho, hs]
      exact newly_visited_refl fs seen
    · obtain ⟨lc, hperm, hnd, hfr, hcont⟩ :=
        inv_pi_of fs n ih (get_includes raw) p.dropLast
          (strPath p :: seen) content seen' hpi
      refine ⟨lc ++ [p], ?_, ?_, ?_, ?_⟩
      · rw [List.map_append]
        have e1 : (lc.map strPath ++ [strPath p]) ++ seen =
            lc.map strPath ++ (strPath p :: seen) := by
          rw [List.append_assoc, List.singleton_append]
        rw [show ([p].map strPath) = [strPath p] from rfl, e1]
        exact hperm
      · rw [List.map_append]
        refine List.Nodup.append hnd (by simp) ?_
        intro a ha1 ha2
        rw [show ([p].map strPath) = [strPath p] from rfl] at ha2
        rw [List.mem_singleton] at ha2
        exact hfr a ha1 (ha2 ▸ List.mem_cons_self _ _)
      · rw [List.map_append]
        intro x hx hxs
        rcases List.mem_append.mp hx with h1 | h1
        · exact hfr x h1 (List.mem_cons_of_mem _ hxs)
        · rw [show ([p].map strPath) = [strPath p] from rfl,
            List.mem_singleton] at h1
          exact hmem (h1 ▸ hxs)
      · rw [hout, hcont, List.map_append, strJoin_append]
        rw [show ([p].map (bodyOf fs)) = [bodyOf fs p] from rfl]
        show _ ++ remove_includes raw ++ "\n\n" = _ ++ (bodyOf fs p ++ "")
        rw [String.append_empty]
        unfold bodyOf
        rw [hr]
        show _ ++ remove_includes raw ++ "\n\n" =
          _ ++ (remove_includes raw ++ "\n\n")
        rw [String.append_assoc]

theorem inv_pu (fs : Fs) (n : Nat) :
    ∀ (us : List PathC) (seen : List String) (out : String)
      (seen' : List String),
      processUnits fs n us seen = Except.ok (out, seen') →
      NewlyVisited fs seen seen' out := by
  intro us
  induction us with
  | nil =>
    intro seen out seen' h
    injection h with h2
    have h3 := Prod.mk.injEq .. ▸ h2
    rw [← h3.1, ← h3.2]
    exact newly_visited_refl fs seen
  | cons u rest ih =>
    intro seen out seen' h
    obtain ⟨t, sn2, s, sn3, hpf, hpu, hr⟩ :=
      processUnits_cons_ok fs n u rest seen (out, seen') h
    have hout : out = t ++ s := (Prod.mk.injEq .. ▸ hr).1
    have hsn : seen' = sn3 := (Prod.mk.injEq .. ▸ hr).2
    obtain ⟨l1, hperm1, hnd1, hfr1, ht⟩ := inv_pf fs n u seen t sn2 hpf
    obtain ⟨l2, hperm2, hnd2, hfr2, hs2⟩ := ih sn2 s sn3 hpu
    have hsub1 : ∀ x, x ∈ sn2 ↔ x ∈ l1.map strPath ++ seen :=
      fun x => hperm1.mem_iff
    refine ⟨l1 ++ l2, ?_, ?_, ?_, ?_⟩
    · rw [hsn, List.map_append]
      have s2 : List.Perm (l2.map strPath ++ sn2)
          (l2.map strPath ++ (l1.map strPath ++ seen)) :=
        List.Perm.append_left _ hperm1
      have s3 : l2.map strPath ++ (l1.map strPath ++ seen) =
          (l2.map strPath ++ l1.map strPath) ++ seen :=
        (List.append_assoc _ _ _).symm
      have s4 : List.Perm ((l2.map strPath ++ l1.map strPath) ++ seen)
          ((l1.map strPath ++ l2.map strPath) ++ seen) :=
        List.Perm.append_right _ List.perm_append_comm
      exact ((hperm2.trans s2).trans (s3 ▸ List.Perm.refl _)).trans s4
    · rw [List.map_append]
      refine List.Nodup.append hnd1 hnd2 ?_
      intro a ha1 ha2
      exact hfr2 a ha2 ((hsub1 a).mpr (List.mem_append_left _ ha1))
    · rw [List.map_append]
      intro x hx hxs
      rcases List.mem_append.mp hx with h1 | h1
      · exact hfr1 x h1 hxs
      · exact hfr2 x h1 ((hsub1 x).mpr (List.mem_append_right _ hxs))
    · rw [hout, List.map_append, strJoin_append, ht, hs2]

/-! ### The "b/.." self-include generates unboundedly many path strings -/

theorem normalize_cycComps : ∀ i : Nat, normalize (cycComps i) = ["r"] := by
  intro i
  induction i with
  | zero => rfl
  | succ i ih =>
    show normalize (cycComps i ++ ["b", ".."]) = ["r"]
    unfold normalize at ih ⊢
    rw [List.foldl_append, ih]
    decide

theorem normalize_cycPath (i : Nat) : normalize (cycPath i) = ["r", "a.x"] := by
  show normalize (cycComps i ++ ["a.x"]) = ["r", "a.x"]
  have ih := normalize_cycComps i
  unfold normalize at ih ⊢
  rw [List.foldl_append, ih]
  decide

theorem readFs_cycPath (i : Nat) :
    readFs cycFs (cycPath i) = some "#include \"b/../a.x\"" := by
  unfold readFs
  rw [normalize_cycPath]
  decide

theorem should_ignore_cycPath (i : Nat) : should_ignore (cycPath i) = false := by
  unfold should_ignore cycPath
  rw [show (cycComps i ++ ["a.x"]).getLastD "" = "a.x" by simp]
  decide

theorem joinpath_cyc (i : Nat) :
    joinpath (cycComps i) "b/../a.x" = cycPath (i + 1) := by
  unfold joinpath
  rw [if_neg (by decide)]
  rw [show parseRel "b/../a.x" = ["b", "..", "a.x"] from rfl]
  show cycComps i ++ ["b", "..", "a.x"] = (cycComps i ++ ["b", ".."]) ++ ["a.x"]
  rw [List.append_assoc]
  rfl

theorem strPath_cycPath (i : Nat) :
    strPath (cycPath i) = strPath (cycComps i) ++ "/" ++ "a.x" := by
  show strPath (cycComps i ++ ["a.x"]) = _
  unfold strPath
  rw [List.foldl_append]
  rfl

theorem strPath_cycPath_succ (i : Nat) :
    strPath (cycPath (i + 1)) =
      ((strPath (cycComps i) ++ "/" ++ "b") ++ "/" ++ "..") ++ "/" ++ "a.x" := by
  show strPath ((cycComps i ++ ["b", ".."]) ++ ["a.x"]) = _
  unfold strPath
  rw [List.foldl_append, List.foldl_append]
  rfl

theorem len_cycPath_succ (i : Nat) :
    (strPath (cycPath (i + 1))).length = (strPath (cycPath i)).length + 5 := by
  rw [strPath_cycPath_succ, strPath_cycPath]
  simp only [String.length_append]
  have h1 : ("/" : String).length = 1 := rfl
  have h2 : ("b" : String).length = 1 := rfl
  have h3 : (".." : String).length = 2 := rfl
  have h4 : ("a.x" : String).length = 3 := rfl
  omega

theorem cycSeen_lt (i : Nat) :
    ∀ x ∈ cycSeen i, x.length < (strPath (cycPath i)).length := by
  induction i with
  | zero => intro x hx; simp [cycSeen] at hx
  | succ i ih =>
    intro x hx
    rcases List.mem_cons.mp hx with h | h
    · rw [h, len_cycPath_succ]
      omega
    · have := ih x h
      rw [len_cycPath_succ]
      omega

theorem strPath_cycPath_not_mem (i : Nat) :
    strPath (cycPath i) ∉ cycSeen i := by
  intro h
  exact absurd rfl (Nat.ne_of_lt (cycSeen_lt i _ h))

/-- The run on `cycFs` exhausts any amount of fuel: at every level the
next path string is new, so the visited check never fires. -/
theorem cyc_fuelOut : ∀ n i : Nat,
    process_file cycFs n (cycPath i) (cycSeen i) =
      Except.error PErr.fuelOut := by
  intro n
  induction n with
  | zero => intro i; rfl
  | succ n ih =>
    intro i
    rw [process_file_succ]
    rw [if_neg (by
      rw [should_ignore_cycPath]
      simp [strPath_cycPath_not_mem i])]
    rw [readFs_cycPath]
    show (match processIncludes cycFs n
        (get_includes "#include \"b/../a.x\"") (cycPath i).dropLast
        (strPath (cycPath i) :: cycSeen i) with
      | Except.error e => Except.error e
      | Except.ok (content, seen2) =>
        Except.ok (content ++
          remove_includes "#include \"b/../a.x\"" ++ "\n\n", seen2)) =
      Except.error PErr.fuelOut
    rw [show get_includes "#include \"b/../a.x\"" = ["b/../a.x"] from rfl]
    rw [show (cycPath i).dropLast = cycComps i from List.dropLast_concat]
    rw [processIncludes_cons, joinpath_cyc i]
    rw [show (strPath (cycPath i) :: cycSeen i) = cycSeen (i + 1) from rfl]
    rw [ih (i + 1)]

/-! ### Tokens produced by the whitespace splitter contain no whitespace -/

theorem splitWsAux_no_ws : ∀ (cs acc : List Char),
    (∀ c ∈ acc, isPyWs c = false) →
    ∀ t ∈ splitWsAux cs acc, ∀ c ∈ t, isPyWs c = false := by
  intro cs
  induction cs with
  | nil =>
    intro acc hacc t ht c hc
    rw [show splitWsAux [] acc =
      (if acc = [] then [] else [acc.reverse]) from rfl] at ht
    by_cases ha : acc = []
    · rw [if_pos ha] at ht; simp at ht
    · rw [if_neg ha] at ht
      rw [List.mem_singleton] at ht
      exact hacc c (List.mem_reverse.mp (ht ▸ hc))
  | cons d ds ih =>
    intro acc hacc t ht c hc
    rw [show splitWsAux (d :: ds) acc =
      (if isPyWs d then
        (if acc = [] then splitWsAux ds []
         else acc.reverse :: splitWsAux ds [])
       else splitWsAux ds (d :: acc)) from rfl] at ht
    by_cases hd : isPyWs d = true
    · rw [if_pos hd] at ht
      by_cases ha : acc = []
      · rw [if_pos ha] at ht
        exact ih [] (by simp) t ht c hc
      · rw [if_neg ha] at ht
        rcases List.mem_cons.mp ht with h | h
        · exact hacc c (List.mem_reverse.mp (h ▸ hc))
        · exact ih [] (by simp) t h c hc
    · rw [if_neg hd] at ht
      refine ih (d :: acc) ?_ t ht c hc
      intro c2 h2
      rcases List.mem_cons.mp h2 with h3 | h3
      · rw [h3]; simpa using hd
      · exact hacc c2 h3

theorem stripQuotes_sub (s : String) :
    ∀ c ∈ (stripQuotes s).data, c ∈ s.data := by
  intro c hc
  have hc2 : c ∈ ((s.data.dropWhile (fun c => c = '"')).reverse.dropWhile
      (fun c => c = '"')).reverse := hc
  rw [List.mem_reverse] at hc2
  have hc3 := (List.dropWhile_sublist _).subset hc2
  rw [List.mem_reverse] at hc3
  exact (List.dropWhile_sublist _).subset hc3

theorem pySplitWs_no_ws (s : String) :
    ∀ t ∈ pySplitWs s, ∀ c ∈ t.data, isPyWs c = false := by
  intro t ht c hc
  obtain ⟨l, hl, hmk⟩ := List.mem_map.mp ht
  exact splitWsAux_no_ws s.data [] (by simp) l hl c (by rw [← hmk] at hc; exact hc)

theorem get_includes_no_ws (s : String) :
    ∀ name ∈ get_includes s, ∀ c ∈ name.data, isPyWs c = false := by
  intro name hn c hc
  obtain ⟨x, hx, hname⟩ := List.mem_map.mp hn
  have hsub := stripQuotes_sub ((pySplitWs x).getD 1 "") c (by
    rw [← hname] at hc; exact hc)
  cases hg : (pySplitWs x).get? 1 with
  | none =>
    have he : (pySplitWs x).getD 1 "" = ((pySplitWs x).get? 1).getD "" := rfl
    rw [hg] at he
    rw [he] at hsub
    simp at hsub
  | some t =>
    have he : (pySplitWs x).getD 1 "" = ((pySplitWs x).get? 1).getD "" := rfl
    rw [hg] at he
    rw [he] at hsub
    exact pySplitWs_no_ws x t (List.get?_mem hg) c hsub

theorem filter_keep_idem (p : String → Bool) (l : List String) :
    (l.filter p).filter p = l.filter p := by
  refine List.filter_eq_self.mpr ?_
  intro a ha
  exact List.of_mem_filter ha

/-! ### Claims -/

set_option maxRecDepth 8000 in
/-- C1 counterexample: in `dupFs` the root includes the same file `a.x`
under the two spellings "a.x" and "sub/../a.x".  Both resolve to the
same file, yet the merged output contains `A-body` twice: the visited
set stores raw path strings ("/r/a.x" vs "/r/sub/../a.x"), not canonical
paths, so the claim "exactly once, no matter how many distinct relative
spellings reach F" is false as stated. -/
theorem dup_body_via_distinct_spelling :
    ∃ merged, assemble dupFs 5 ["r", "R.h"] [] = Except.ok merged ∧
      countOcc "A-body" merged = 2 := by
  refine ⟨_, rfl, ?_⟩
  decide

/-- C1 (amended): deduplication is by exact path-string equality.  In
any successful run, the merged document is the template filled with
concatenations of stripped bodies of newly visited files whose path
strings are pairwise distinct — each visited path string contributes its
body exactly once across both sections. -/
theorem assemble_no_duplicate_bodies (fs : Fs) (fuel : Nat) (root : PathC)
    (units : List PathC) (merged : String)
    (h : assemble fs fuel root units = Except.ok merged) :
    ∃ lr lu : List PathC,
      ((lr ++ lu).map strPath).Nodup ∧
      merged = remove_pragma_once (fmtTemplate
        (strJoin (lr.map (bodyOf fs))) (strJoin (lu.map (bodyOf fs)))) := by
  obtain ⟨decl, seen1, impl, seen2, hpf, hpu, hm⟩ :=
    assemble_ok_inv fs fuel root units merged h
  obtain ⟨lr, hpr, hndr, _, hdecl⟩ := inv_pf fs fuel root [] decl seen1 hpf
  obtain ⟨lu, hpu2, hndu, hfru, himpl⟩ := inv_pu fs fuel _ seen1 impl seen2 hpu
  refine ⟨lr, lu, ?_, ?_⟩
  · rw [List.map_append]
    refine List.Nodup.append hndr hndu ?_
    intro a ha1 ha2
    have hin1 : a ∈ seen1 := hpr.mem_iff.mpr (by simpa using ha1)
    exact hfru a ha2 hin1
  · rw [hm, hdecl, himpl]

theorem assemble_no_duplicate_bodies_witness :
    ∃ merged, assemble exFs 5 ["r", "R.h"] [["r", "U.cpp"]] =
        Except.ok merged ∧
      ∃ lr lu : List PathC,
        ((lr ++ lu).map strPath).Nodup ∧
        merged = remove_pragma_once (fmtTemplate
          (strJoin (lr.map (bodyOf exFs))) (strJoin (lu.map (bodyOf exFs)))) :=
  ⟨_, rfl, assemble_no_duplicate_bodies exFs 5 ["r", "R.h"] [["r", "U.cpp"]]
    _ rfl⟩

/-- C2: on the three-file example tree, flattening the root gives
declaration text "A-body\n\nR-body\n\n", and flattening the unit file
with the same visited set gives implementation text "U-body\n\n"
(`a.x` is not repeated since it is already visited). -/
theorem end_to_end_example :
    process_file exFs 5 ["r", "R.h"] [] =
      Except.ok ("A-body\n\nR-body\n\n", ["/r/a.x", "/r/R.h"]) ∧
    processUnits exFs 5 [["r", "U.cpp"]] ["/r/a.x", "/r/R.h"] =
      Except.ok ("U-body\n\n", ["/r/U.cpp", "/r/a.x", "/r/R.h"]) := by
  exact ⟨by decide, by decide⟩

/-- C3 counterexample: on `cycFs`, where `a.x` includes itself under the
spelling "b/../a.x", the flattener never terminates: every recursion
level constructs a path string not yet in the visited set, so the run
exhausts any recursion budget (Python dies with RecursionError) and no
amount of fuel produces a result. -/
theorem flatten_dotdot_cycle_diverges :
    process_file cycFs 1000 ["r", "a.x"] [] = Except.error PErr.fuelOut ∧
    ¬ ∃ (fuel : Nat) (r : String × List String),
        process_file cycFs fuel ["r", "a.x"] [] = Except.ok r := by
  constructor
  · exact cyc_fuelOut 1000 0
  · rintro ⟨fuel, r, h⟩
    have h2 : process_file cycFs fuel ["r", "a.x"] [] =
      Except.error PErr.fuelOut := cyc_fuelOut fuel 0
    rw [h2] at h
    exact absurd h (by simp)

/-- C3 (amended): the visited-before-recurse check breaks cycles in
which a file is reached again under the same path string; in particular
the two-file cycle `A.h` ↔ `B.h` (plain-filename includes) terminates
and emits each body exactly once.  Termination for arbitrary trees does
not hold (see the "b/.." counterexample). -/
theorem flatten_ab_cycle_terminates :
    process_file abFs 5 ["r", "A.h"] [] =
      Except.ok ("B-body\n\nA-body\n\n", ["/r/B.h", "/r/A.h"]) ∧
    countOcc "A-body" "B-body\n\nA-body\n\n" = 1 ∧
    countOcc "B-body" "B-body\n\nA-body\n\n" = 1 := by
  exact ⟨by decide, by decide, by decide⟩

/-- C5 counterexample: `remove_pragma_once` removes every line that
merely STARTS with "#pragma once", not only lines that are exactly the
directive: the line "#pragma onceX" is not the directive, yet it is
removed. -/
theorem pragma_prefix_line_removed :
    remove_pragma_once "#pragma onceX\nkeep" = "keep\n" ∧
    "#pragma onceX" ≠ "#pragma once" := by
  exact ⟨by decide, by decide⟩

/-- C5 (amended): `remove_pragma_once` removes exactly the lines
starting with "#pragma once"; all other lines are preserved verbatim and
in order, and the result always ends with a trailing newline (a bare
newline when no line is kept). -/
theorem remove_pragma_once_lines (s : String) :
    pySplitlines (remove_pragma_once s) =
      (if ((pySplitlines s).filter
          (fun line => !(startsWithPy line "#pragma once"))) = []
       then [""]
       else (pySplitlines s).filter
          (fun line => !(startsWithPy line "#pragma once"))) ∧
    ∃ t, remove_pragma_once s = t ++ "\n" :=
  ⟨lines_remove_pragma_once s, ⟨_, rfl⟩⟩

/-- C6: stripping pragma lines is idempotent — a second application
leaves the text unchanged. -/
theorem remove_pragma_once_idempotent (s : String) :
    remove_pragma_once (remove_pragma_once s) = remove_pragma_once s := by
  by_cases h : ((pySplitlines s).filter
      (fun line => !(startsWithPy line "#pragma once"))) = []
  · have h1 : remove_pragma_once s = "\n" := by
      rw [show remove_pragma_once s =
        joinNl ((pySplitlines s).filter
          (fun line => !(startsWithPy line "#pragma once"))) ++ "\n" from rfl, h]
      rfl
    rw [h1]
    decide
  · show joinNl ((pySplitlines (remove_pragma_once s)).filter
      (fun line => !(startsWithPy line "#pragma once"))) ++ "\n" =
      remove_pragma_once s
    rw [lines_remove_pragma_once s, if_neg h]
    rw [filter_keep_idem]
    rfl

/-- C9: the assembler is deterministic — two successful runs on the same
tree, root and unit list produce the same merged text, independently of
the recursion budget each run was given. -/
theorem assemble_deterministic (fs : Fs) (root : PathC) (units : List PathC)
    (f1 f2 : Nat) (o1 o2 : String)
    (h1 : assemble fs f1 root units = Except.ok o1)
    (h2 : assemble fs f2 root units = Except.ok o2) : o1 = o2 := by
  have h1m := mono_assemble fs f1 (max f1 f2) (Nat.le_max_left f1 f2)
    root units o1 h1
  have h2m := mono_assemble fs f2 (max f1 f2) (Nat.le_max_right f1 f2)
    root units o2 h2
  rw [h1m] at h2m
  injection h2m

theorem assemble_deterministic_witness :
    ∃ o1 o2 : String,
      assemble exFs 5 ["r", "R.h"] [["r", "U.cpp"]] = Except.ok o1 ∧
      assemble exFs 7 ["r", "R.h"] [["r", "U.cpp"]] = Except.ok o2 ∧
      o1 = o2 :=
  ⟨_, _, rfl, rfl,
    assemble_deterministic exFs ["r", "R.h"] [["r", "U.cpp"]] 5 7 _ _ rfl rfl⟩

/-- C10: every filename the include extractor returns is free of
whitespace characters — the directive line is split on whitespace and
only the second token (quotes stripped) is kept, so a quoted name
containing a space is truncated at the space, as the second conjunct
shows on the literal line `#include "my file.h"`. -/
theorem include_names_no_whitespace :
    (∀ (s name : String), name ∈ get_includes s →
      ∀ c ∈ name.data, isPyWs c = false) ∧
    get_includes "#include \"my file.h\"" = ["my"] :=
  ⟨fun s name h c hc => get_includes_no_ws s name h c hc, by decide⟩

theorem include_names_no_whitespace_witness :
    "a.x" ∈ get_includes "#include \"a.x\"\nbody" ∧
    (∀ c ∈ ("a.x" : String).data, isPyWs c = false) :=
  ⟨by decide,
    include_names_no_whitespace.1 "#include \"a.x\"\nbody" "a.x" (by decide)⟩

/-- C4: the flattened output of a file is the concatenation of its
resolved dependencies' flattened results — produced by the include loop
in directive order, each one recursively flattened with the threaded
visited set — followed by the file's own directive-stripped body, so
every direct dependency's contribution appears strictly before the
including file's body. -/
theorem dependency_before_body :
    (∀ (fs : Fs) (fuel : Nat) (p : PathC) (seen : List String) (out : String)
      (seen' : List String) (raw : String),
      strPath p ∉ seen → should_ignore p = false → readFs fs p = some raw →
      process_file fs (fuel + 1) p seen = Except.ok (out, seen') →
      ∃ pre, processIncludes fs fuel (get_includes raw) p.dropLast
          (strPath p :: seen) = Except.ok (pre, seen') ∧
        out = pre ++ remove_includes raw ++ "\n\n") ∧
    (∀ (fs : Fs) (fuel : Nat) (inc : String) (rest : List String)
      (parent : PathC) (seen : List String) (out : String)
      (seen' : List String),
      processIncludes fs fuel (inc :: rest) parent seen =
        Except.ok (out, seen') →
      ∃ g s1 grest,
        process_file fs fuel (joinpath parent inc) seen = Except.ok (g, s1) ∧
        processIncludes fs fuel rest parent s1 = Except.ok (grest, seen') ∧
        out = g ++ grest) := by
  constructor
  · intro fs fuel p seen out seen' raw hmem hign hread h
    rcases process_file_ok_inv fs fuel p seen out seen' h with
      ⟨hc, _, _⟩ | ⟨_, _, raw2, content, hr2, hpi, hout⟩
    · rcases hc with hc | hc
      · exact absurd hc hmem
      · rw [hign] at hc; exact absurd hc (by simp)
    · rw [hread] at hr2
      injection hr2 with hr3
      subst hr3
      exact ⟨content, hpi, hout⟩
  · intro fs fuel inc rest parent seen out seen' h
    obtain ⟨t, sn2, u, sn3, hpf, hpi, hr⟩ :=
      processIncludes_cons_ok fs fuel inc rest parent seen (out, seen') h
    have h1 : out = t ++ u := (Prod.mk.injEq .. ▸ hr).1
    have h2 : seen' = sn3 := (Prod.mk.injEq .. ▸ hr).2
    rw [← h2] at hpi
    exact ⟨t, sn2, u, hpf, hpi, h1⟩

theorem dependency_before_body_witness :
    (∃ pre, processIncludes exFs 4
        (get_includes "#include \"a.x\"\nR-body") (["r", "R.h"] : PathC).dropLast
        (strPath ["r", "R.h"] :: []) =
          Except.ok (pre, ["/r/a.x", "/r/R.h"]) ∧
      "A-body\n\nR-body\n\n" =
        pre ++ remove_includes "#include \"a.x\"\nR-body" ++ "\n\n") ∧
    (∃ g s1 grest,
      process_file exFs 4 (joinpath ["r"] "a.x") ["/r/R.h"] =
        Except.ok (g, s1) ∧
      processIncludes exFs 4 [] ["r"] s1 =
        Except.ok (grest, ["/r/a.x", "/r/R.h"]) ∧
      "A-body\n\n" = g ++ grest) :=
  ⟨dependency_before_body.1 exFs 4 ["r", "R.h"] [] "A-body\n\nR-body\n\n"
      ["/r/a.x", "/r/R.h"] "#include \"a.x\"\nR-body"
      (by decide) (by decide) rfl (by decide),
   dependency_before_body.2 exFs 4 "a.x" [] ["r"] ["/r/R.h"] "A-body\n\n"
      ["/r/a.x", "/r/R.h"] (by decide)⟩

/-- C7: an include that resolves to an unvisited, non-ignored file that
cannot be opened raises a read error; the error propagates through the
include loop, the unit pass and `assemble` to the top level, and a run
that ends in an error produces no merged output at all (the output is
built only from a fully successful `assemble`). -/
theorem missing_include_fatal :
    (∀ (fs : Fs) (n : Nat) (p : PathC) (seen : List String),
      strPath p ∉ seen → should_ignore p = false → readFs fs p = none →
      process_file fs (n + 1) p seen = Except.error (PErr.readErr p)) ∧
    (∀ (fs : Fs) (n : Nat) (root : PathC) (units : List PathC) (e : PErr),
      process_file fs n root [] = Except.error e →
      assemble fs n root units = Except.error e) ∧
    (∀ (fs : Fs) (n : Nat) (root : PathC) (units : List PathC) (e : PErr)
      (decl : String) (seen1 : List String),
      process_file fs n root [] = Except.ok (decl, seen1) →
      processUnits fs n (units.filter (fun f => !should_ignore f)) seen1 =
        Except.error e →
      assemble fs n root units = Except.error e) := by
  refine ⟨?_, ?_, ?_⟩
  · intro fs n p seen hmem hign hread
    rw [process_file_succ, if_neg (by rw [hign]; simp [hmem]), hread]
  · intro fs n root units e h
    rw [assemble_eq, h]
  · intro fs n root units e decl seen1 h1 h2
    rw [assemble_eq, h1]
    show (match processUnits fs n (units.filter (fun f => !should_ignore f))
        seen1 with
      | Except.error e => Except.error e
      | Except.ok (impl, _) =>
        Except.ok (remove_pragma_once (fmtTemplate decl impl))) =
      Except.error e
    rw [h2]

theorem missing_include_fatal_witness :
    process_file ([] : Fs) 1 ["r", "x.h"] [] =
      Except.error (PErr.readErr ["r", "x.h"]) ∧
    assemble ([] : Fs) 1 ["r", "x.h"] [] =
      Except.error (PErr.readErr ["r", "x.h"]) ∧
    assemble [(["r", "root.h"], "")] 1 ["r", "root.h"] [["r", "u.cpp"]] =
      Except.error (PErr.readErr ["r", "u.cpp"]) :=
  have ha : process_file ([] : Fs) 1 ["r", "x.h"] [] =
      Except.error (PErr.readErr ["r", "x.h"]) :=
    missing_include_fatal.1 [] 0 ["r", "x.h"] [] (by decide) (by decide) rfl
  ⟨ha,
   missing_include_fatal.2.1 [] 1 ["r", "x.h"] [] _ ha,
   missing_include_fatal.2.2 [(["r", "root.h"], "")] 1 ["r", "root.h"]
     [["r", "u.cpp"]] (PErr.readErr ["r", "u.cpp"]) "\n\n" ["/r/root.h"]
     (by decide) (by decide)⟩

/-- C8: a file whose final path segment is in the ignored set
contributes nothing: flattening it returns empty text with the visited
set unchanged (no read, no recursion), and an ignored entry in the
discovered unit list is filtered out, leaving the assembled output
unchanged. -/
theorem ignored_file_contributes_nothing :
    (∀ (fs : Fs) (n : Nat) (p : PathC) (seen : List String),
      should_ignore p = true →
      process_file fs (n + 1) p seen = Except.ok ("", seen)) ∧
    (∀ (fs : Fs) (fuel : Nat) (root : PathC) (units1 units2 : List PathC)
      (p : PathC),
      should_ignore p = true →
      assemble fs fuel root (units1 ++ p :: units2) =
        assemble fs fuel root (units1 ++ units2)) := by
  constructor
  · intro fs n p seen h
    rw [process_file_succ, if_pos (Or.inr h)]
  · intro fs fuel root units1 units2 p h
    rw [assemble_eq, assemble_eq]
    have hf : (units1 ++ p :: units2).filter (fun f => !should_ignore f) =
        (units1 ++ units2).filter (fun f => !should_ignore f) := by
      simp [List.filter_append, List.filter_cons, h]
    rw [hf]

theorem ignored_file_contributes_nothing_witness :
    process_file exFs 1 ["r", "main.cpp"] ["/r/R.h"] =
      Except.ok ("", ["/r/R.h"]) ∧
    assemble exFs 5 ["r", "R.h"] [["r", "main.cpp"], ["r", "U.cpp"]] =
      assemble exFs 5 ["r", "R.h"] [["r", "U.cpp"]] :=
  ⟨ignored_file_contributes_nothing.1 exFs 0 ["r", "main.cpp"] ["/r/R.h"]
      (by decide),
   ignored_file_contributes_nothing.2 exFs 5 ["r", "R.h"] [] [["r", "U.cpp"]]
      ["r", "main.cpp"] (by decide)⟩

end Wings
